import Mathlib

/-!
# Verification of the snowball core

A shallow embedding of the snowball repository's core components and proofs of
the specification's claims about them:

* `src/graph.rs`   — the generic undirected weighted graph (`Graph`);
* `src/vec2d.rs`   — 2-D vectors (`Vec2d`);
* `src/lib.rs`     — the force-directed layout stepper (`System`);
* `src/lottie_graph.rs` — the trajectory recorder (`History`).

Modelling conventions:

* `hashbrown::HashMap` / `std::collections::HashMap` are modelled as
  association lists (`List (K × V)`); a hash map guarantees at most one entry
  per key and no particular iteration order, so the model fixes one order and
  keeps entries unique by construction.
* `f32` values are modelled as rationals (`ℚ`); square roots (`f32::sqrt`,
  and `f32::hypot` which computes the square root of `x*x + y*y`) are
  modelled by an abstract function `sq : ℚ → ℚ` passed explicitly, so every
  statement holds for any interpretation of the square root.  Division is the
  total division of `ℚ`; the one place the source divides by a possibly-zero
  length is the subject of claim C9, which tracks the divisor itself.
* A Rust panic (`assert!` failure or `unwrap` of `None`) is modelled by
  returning `none` from an `Option`-valued function.
* `rand::thread_rng().gen_range(-1.0..1.0)` is modelled by an explicit
  caller-supplied draw `x` with `-1 ≤ x < 1`.
-/

set_option linter.unusedSectionVars false

section AssocList

variable {K : Type} {V : Type} [DecidableEq K]

/-- Key lookup in an association list, modelling `HashMap::get`. -/
def lookupP (k : K) : List (K × V) → Option V
  | [] => none
  | p :: t => if p.1 = k then some p.2 else lookupP k t

/-- `HashMap::remove` (the stored mapping only; the map holds at most one
entry per key, so removal deletes every entry with that key). -/
def eraseP (k : K) : List (K × V) → List (K × V)
  | [] => []
  | p :: t => if p.1 = k then eraseP k t else p :: eraseP k t

/-- `HashMap::insert`: any existing entry for the key is replaced. -/
def insertP (k : K) (v : V) (l : List (K × V)) : List (K × V) :=
  (k, v) :: eraseP k l

/-- An in-place update through `HashMap::get_mut` (the position of every
entry is preserved). -/
def modifyP (k : K) (f : V → V) : List (K × V) → List (K × V)
  | [] => []
  | p :: t => if p.1 = k then (p.1, f p.2) :: modifyP k f t
              else p :: modifyP k f t

/-- The keys of an association list. -/
def keysP (l : List (K × V)) : List K := l.map Prod.fst

end AssocList

/-! ## `src/vec2d.rs` -/

/-- `Vec2d` from `src/vec2d.rs`, over `ℚ` in place of `f32`. -/
structure Vec2d where
  x : ℚ
  y : ℚ
deriving DecidableEq

instance : Add Vec2d := ⟨fun a b => ⟨a.x + b.x, a.y + b.y⟩⟩
instance : Sub Vec2d := ⟨fun a b => ⟨a.x - b.x, a.y - b.y⟩⟩
instance : Neg Vec2d := ⟨fun a => ⟨-a.x, -a.y⟩⟩
instance : HMul Vec2d ℚ Vec2d := ⟨fun a r => ⟨a.x * r, a.y * r⟩⟩
instance : HDiv Vec2d ℚ Vec2d := ⟨fun a r => ⟨a.x / r, a.y / r⟩⟩

namespace Vec2d

/-- `Vec2d::new`. -/
def new (x y : ℚ) : Vec2d := ⟨x, y⟩

/-- `Vec2d::length`: `self.x.hypot(self.y)`, i.e. the square root of
`x*x + y*y`; `sq` is the abstract square root. -/
def length (sq : ℚ → ℚ) (v : Vec2d) : ℚ := sq (v.x * v.x + v.y * v.y)

/-- `Vec2d::distance`. -/
def distance (sq : ℚ → ℚ) (v other : Vec2d) : ℚ := length sq (v - other)

/-- `Vec2d::as_unit`: divides both components by the length, with no guard
against a zero length. -/
def as_unit (sq : ℚ → ℚ) (v : Vec2d) : Vec2d :=
  ⟨v.x / length sq v, v.y / length sq v⟩

/-- `Vec2d::random_unit`: the rng draw `x` from `gen_range(-1.0..1.0)` is an
explicit argument; `y = x.mul_add(-x, 1.).sqrt()`. -/
def random_unit (sq : ℚ → ℚ) (x : ℚ) : Vec2d :=
  ⟨x, sq (x * (-x) + 1)⟩

end Vec2d

/-! ## `src/graph.rs` -/

/-- `Graph<N, W>` from `src/graph.rs`: nodes indexed by key, edges as a
nested map storing each undirected edge twice, once per endpoint.  The key
function `key` models the `HasKey` trait; the weight default `dflt` models
`W::default()`. -/
structure Graph (K N W : Type) where
  nodes : List (K × N)
  edges : List (K × List (K × W))
deriving DecidableEq

section GraphModel

variable {K N W : Type} [DecidableEq K]
variable (key : N → K) (dflt : W)

/-- `Graph::new`. -/
def Graph.new : Graph K N W := ⟨[], []⟩

/-- `Graph::add_node`: insert or replace by the node's key. -/
def Graph.add_node (g : Graph K N W) (node : N) : Graph K N W :=
  { g with nodes := insertP (key node) node g.nodes }

/-- `Graph::get_node`. -/
def Graph.get_node (g : Graph K N W) (k : K) : Option N :=
  lookupP k g.nodes

/-- `Graph::node_count`. -/
def Graph.node_count (g : Graph K N W) : Nat := g.nodes.length

/-- The stored weight of the directed entry `edges[a][b]` (helper used to
state symmetry; `none` when no entry is stored). -/
def Graph.edgeLookup (g : Graph K N W) (a b : K) : Option W :=
  (lookupP a g.edges).bind (fun m => lookupP b m)

/-- `Graph::set_weight`: asserts that both endpoints exist (modelled by
`none` = panic), then writes the weight into `edges[from][to]` and
`edges[to][from]` and returns the value previously stored in
`edges[to][from]`, defaulting.  Mirrors the two `entry(..).or_default()`
insertions of the source, in order. -/
def Graph.set_weight (g : Graph K N W) (a b : K) (w : W) :
    Option (Graph K N W × W) :=
  if (lookupP a g.nodes).isSome && (lookupP b g.nodes).isSome then
    let ma := (lookupP a g.edges).getD []
    let e1 := insertP a (insertP b w ma) g.edges
    let mb := (lookupP b e1).getD []
    let prev := (lookupP a mb).getD dflt
    some ({ g with edges := insertP b (insertP a w mb) e1 }, prev)
  else none

/-- `Graph::get_weight`: total; returns the default weight when no entry is
stored. -/
def Graph.get_weight (g : Graph K N W) (a b : K) : W :=
  ((lookupP a g.edges).bind (fun m => lookupP b m)).getD dflt

/-- `Graph::edges` (the iterator method; renamed because the Lean structure
field is already called `edges`): every other node of the graph paired with
the stored weight towards it, defaulting. -/
def Graph.edgesOf (g : Graph K N W) (k : K) : List (N × W) :=
  let siblings := lookupP k g.edges
  ((g.nodes.map Prod.snd).filter (fun n => decide (key n ≠ k))).map
    (fun n => (n, (siblings.bind (fun m => lookupP (key n) m)).getD dflt))

/-- The edge-cleanup loop of `Graph::remove_node`: for every sibling of the
removed key, remove the back edge through `get_mut(..).unwrap()` (`none` =
panic when the sibling has no outer entry). -/
def Graph.removeLoop (k : K) :
    List (K × W) → List (K × List (K × W)) → Option (List (K × List (K × W)))
  | [], e => some e
  | (s, _) :: rest, e =>
    match lookupP s e with
    | none => none
    | some m => Graph.removeLoop k rest (insertP s (eraseP k m) e)

/-- `Graph::remove_node`: removes the node, and if it existed removes its
edge map and every back edge stored at its siblings. -/
def Graph.remove_node (g : Graph K N W) (k : K) :
    Option (Graph K N W × Option N) :=
  match lookupP k g.nodes with
  | none => some ({ g with nodes := eraseP k g.nodes }, none)
  | some n =>
    match lookupP k g.edges with
    | none => some ({ g with nodes := eraseP k g.nodes }, some n)
    | some sib =>
      match Graph.removeLoop k sib (eraseP k g.edges) with
      | none => none
      | some e' => some ({ nodes := eraseP k g.nodes, edges := e' }, some n)

/-- The graph states reachable through the public mutating operations
(`add_node`, `set_weight`, `remove_node`), starting from the empty graph; a
`set_weight`/`remove_node` step is taken only when the call returns (does
not panic). -/
inductive Graph.Reach : Graph K N W → Prop
  | new : Graph.Reach (Graph.new)
  | add {g : Graph K N W} (n : N) :
      Graph.Reach g → Graph.Reach (Graph.add_node key g n)
  | setw {g g' : Graph K N W} {a b : K} {w prev : W} :
      Graph.Reach g → Graph.set_weight dflt g a b w = some (g', prev) →
      Graph.Reach g'
  | remove {g g' : Graph K N W} {k : K} {res : Option N} :
      Graph.Reach g → Graph.remove_node g k = some (g', res) →
      Graph.Reach g'

/-- The structural invariant maintained by the graph operations: stored node
values carry their own key; edge storage is symmetric; every stored edge
entry points between present nodes. -/
structure Graph.Inv (g : Graph K N W) : Prop where
  coher : ∀ p ∈ g.nodes, key p.2 = p.1
  symm : ∀ a b, g.edgeLookup a b = g.edgeLookup b a
  dom : ∀ a b, (g.edgeLookup a b).isSome →
      (lookupP a g.nodes).isSome ∧ (lookupP b g.nodes).isSome

end GraphModel

/-! ## `src/lib.rs` -/

set_option linter.unusedVariables false

/-- `SPRING_CONSTANT` (`0.01_f32`, idealized as a rational). -/
def SPRING_CONSTANT : ℚ := 1/100

/-- `TARGET_DENSITY` (`150._f32`). -/
def TARGET_DENSITY : ℚ := 150

/-- `MIN_SPRING_LENGTH` (`10._f32`). -/
def MIN_SPRING_LENGTH : ℚ := 10

/-- `DAMPING` (`0.9_f32`, idealized as a rational). -/
def DAMPING : ℚ := 9/10

/-- `SIZE` (`1000._f32`). -/
def SIZE : ℚ := 1000

/-- `STARTING_JITTER` (`5._f32`). -/
def STARTING_JITTER : ℚ := 5

/-- `Node` from `src/lib.rs` (a simulation node; the feature-gated
rendering fields are omitted). -/
structure Node where
  id : ℕ
  pos : Vec2d
  velocity : Vec2d
deriving DecidableEq

/-- `System` from `src/lib.rs`, restricted to the always-compiled fields
(rendering and recording fields are behind cargo features). -/
structure System where
  graph : Graph ℕ Node ℚ
  steps : ℕ
deriving DecidableEq

namespace System

/-- `System::new`. -/
def new : System := ⟨Graph.new, 0⟩

/-- `System::add_node` (the source also returns the id, which the model
drops); `x` is the rng draw of `Vec2d::random_unit`; the colour is consumed
only by feature-gated collaborators. -/
def add_node (sq : ℚ → ℚ) (s : System) (id : ℕ) (colour : ℕ × ℕ × ℕ)
    (x : ℚ) : System :=
  let center := Vec2d.new (SIZE / 2) (SIZE / 2)
  let jitter := Vec2d.random_unit sq x * STARTING_JITTER
  let pos := center + jitter
  let velocity := Vec2d.new 0 0
  { s with graph := Graph.add_node Node.id s.graph ⟨id, pos, velocity⟩ }

/-- `System::set_weight` (`none` = panic propagated from
`Graph::set_weight`; the returned previous weight is discarded). -/
def set_weight (s : System) (a b : ℕ) (w : ℚ) : Option System :=
  match Graph.set_weight (0 : ℚ) s.graph a b w with
  | none => none
  | some (g', _) => some { s with graph := g' }

/-- `System::max_distance`: `sqrt(node_count) * TARGET_DENSITY`. -/
def max_distance (sq : ℚ → ℚ) (s : System) : ℚ :=
  sq ((s.graph.node_count : ℚ)) * TARGET_DENSITY

/-- `System::node_acceleration`: sum over every sibling edge of
`direction * force`. -/
def node_acceleration (sq : ℚ → ℚ) (s : System) (node : Node) : Vec2d :=
  (Graph.edgesOf Node.id (0 : ℚ) s.graph node.id).foldl
    (fun accel sw =>
      let spring_length := max (max_distance sq s - sw.2) MIN_SPRING_LENGTH
      let force := SPRING_CONSTANT *
        (node.pos.distance sq sw.1.pos - spring_length)
      let direction := (sw.1.pos - node.pos).as_unit sq
      accel + direction * force)
    (Vec2d.new 0 0)

/-- The list of divisors `node_acceleration` hands to `as_unit`: for each
sibling edge, the length of the difference vector that normalizes the
direction. -/
def accelDivisors (sq : ℚ → ℚ) (s : System) (node : Node) : List ℚ :=
  (Graph.edgesOf Node.id (0 : ℚ) s.graph node.id).map
    (fun sw => (sw.1.pos - node.pos).length sq)

/-- The per-node update of `System::move_node`:
`velocity += accel; velocity *= DAMPING; pos += velocity`. -/
def moveFn (accel : Vec2d) (n : Node) : Node :=
  let v := (n.velocity + accel) * DAMPING
  { n with velocity := v, pos := n.pos + v }

/-- `System::move_node` (`none` models the `unwrap` panic when the id is
not in the graph). -/
def move_node (s : System) (id : ℕ) (accel : Vec2d) : Option System :=
  match lookupP id s.graph.nodes with
  | none => none
  | some _ =>
      some { s with graph :=
        { s.graph with nodes := modifyP id (moveFn accel) s.graph.nodes } }

/-- The write loop of `System::step`: apply `move_node` for every collected
`(id, acceleration)` pair in order. -/
def moveMany (s : System) : List (ℕ × Vec2d) → Option System
  | [] => some s
  | (id, a) :: rest =>
    match move_node s id a with
    | none => none
    | some s' => moveMany s' rest

/-- `System::step`: first collect `(id, acceleration)` for every node from
the unmodified state, then move every node, then increment the step
counter. -/
def step (sq : ℚ → ℚ) (s : System) : Option System :=
  let node_accel :=
    s.graph.nodes.map (fun p => (p.2.id, node_acceleration sq s p.2))
  match moveMany s node_accel with
  | none => none
  | some s' => some { s' with steps := s'.steps + 1 }

/-- `System::many_steps`. -/
def many_steps (sq : ℚ → ℚ) (s : System) : ℕ → Option System
  | 0 => some s
  | n+1 =>
    match step sq s with
    | none => none
    | some s' => many_steps sq s' n

/-- Modelled from the spec (§4.2): the Jacobi-style synchronous reference
update.  Every node's acceleration is computed from the positions as they
stood at the start of the tick; then for every node independently
`velocity = (velocity + acceleration) * dampingFactor` and
`position += velocity`; the tick counter advances by one. -/
def stepJacobiRef (sq : ℚ → ℚ) (s : System) : System :=
  { graph := { s.graph with nodes := s.graph.nodes.map (fun p =>
      let acceleration := node_acceleration sq s p.2
      let v := (p.2.velocity + acceleration) * DAMPING
      (p.1, { p.2 with velocity := v, pos := p.2.pos + v })) },
    steps := s.steps + 1 }

/-- System states reachable through the public API: `new`, `add_node` with
an arbitrary rng draw in `[-1, 1)`, `set_weight` and `step` (the latter two
only when they return rather than panic). -/
inductive Reach (sq : ℚ → ℚ) : System → Prop
  | new : Reach sq System.new
  | add {s : System} (id : ℕ) (colour : ℕ × ℕ × ℕ) {x : ℚ} :
      Reach sq s → -1 ≤ x → x < 1 →
      Reach sq (System.add_node sq s id colour x)
  | setw {s s' : System} {a b : ℕ} {w : ℚ} :
      Reach sq s → System.set_weight s a b w = some s' → Reach sq s'
  | step {s s' : System} :
      Reach sq s → System.step sq s = some s' → Reach sq s'

end System

/-! ## `src/lottie_graph.rs` -/

namespace LottieGraph

/-- `NODE_SIZE` (`20._f32`). -/
def NODE_SIZE : ℚ := 20

/-- `Colour` from `src/lottie.rs` (three `f32` channels). -/
structure Colour where
  r : ℚ
  g : ℚ
  b : ℚ
deriving DecidableEq

/-- `Frame` from `src/lottie_graph.rs`: a run-length-encoded position. -/
structure Frame where
  pos : Vec2d
  length : ℕ
deriving DecidableEq

/-- `(-1.0..1.).contains(&v)`: a `Range` contains its start and excludes
its end, so this is `-1 ≤ v < 1`. -/
def Rcontains (v : ℚ) : Bool := decide (-1 ≤ v) && decide (v < 1)

/-- `Node` from `src/lottie_graph.rs` (one recorder record). -/
structure Node where
  start : ℕ
  colour : Colour
  frames : List Frame
deriving DecidableEq

/-- `Node::push_pos`: take `diff = last.pos - pos` against the last frame's
recorded position; if both components lie in `[-1, 1)`, extend that frame's
run length in place, otherwise (or when no frame exists yet) append a new
frame of run length 1. -/
def Node.push_pos (n : Node) (pos : Vec2d) : Node :=
  match n.frames.getLast? with
  | some last =>
    let diff := last.pos - pos
    if Rcontains diff.x && Rcontains diff.y then
      { n with frames :=
          n.frames.dropLast ++ [{ last with length := last.length + 1 }] }
    else
      { n with frames := n.frames ++ [{ pos := pos, length := 1 }] }
  | none => { n with frames := n.frames ++ [{ pos := pos, length := 1 }] }

/-- `History` from `src/lottie_graph.rs`; the `open` field is renamed
`openRecs` because `open` is reserved in Lean. -/
structure History where
  openRecs : List (ℕ × Node)
  closed : List Node
  step : ℕ
deriving DecidableEq

namespace History

/-- `History::new`. -/
def new : History := ⟨[], [], 0⟩

/-- `History::add_node`: opens a record starting at the current step; each
`[u8; 3]` colour channel is scaled by `1/255`. -/
def add_node (h : History) (id : ℕ) (colour : ℕ × ℕ × ℕ) : History :=
  let node : Node :=
    { start := h.step,
      colour := ⟨(colour.1 : ℚ) / 255, (colour.2.1 : ℚ) / 255,
                 (colour.2.2 : ℚ) / 255⟩,
      frames := [] }
  { h with openRecs := insertP id node h.openRecs }

/-- `History::remove_node`: if the id has an open record, move it to
`closed`; otherwise nothing happens. -/
def remove_node (h : History) (id : ℕ) : History :=
  match lookupP id h.openRecs with
  | some node => { h with openRecs := eraseP id h.openRecs,
                          closed := h.closed ++ [node] }
  | none => h

/-- `History::set_position`:
`self.open.get_mut(&id).unwrap().push_pos(pos)` (`none` models the `unwrap`
panic on an id with no open record). -/
def set_position (h : History) (id : ℕ) (pos : Vec2d) : Option History :=
  match lookupP id h.openRecs with
  | none => none
  | some _ =>
      some { h with openRecs := modifyP id (fun n => n.push_pos pos) h.openRecs }

/-- `History::next_step`. -/
def next_step (h : History) : History := { h with step := h.step + 1 }

end History

/-- Feeding the recorder the same position for `k` consecutive ticks: each
tick is one `set_position` for the id followed by `next_step`. -/
def feedSame (h : History) (id : ℕ) (pos : Vec2d) : ℕ → Option History
  | 0 => some h
  | k+1 =>
    match h.set_position id pos with
    | none => none
    | some h' => feedSame (h'.next_step) id pos k

/-- Feeding a record a list of positions, in order, through `push_pos`. -/
def Node.feedList (n : Node) : List Vec2d → Node
  | [] => n
  | p :: ps => (n.push_pos p).feedList ps

end LottieGraph

/-! ## Association-list lemmas -/

section AssocList

variable {K : Type} {V : Type} [DecidableEq K]

theorem keysP_nil : keysP ([] : List (K × V)) = [] := rfl

theorem keysP_cons (p : K × V) (t : List (K × V)) :
    keysP (p :: t) = p.1 :: keysP t := rfl

theorem lookupP_eraseP_self (k : K) (l : List (K × V)) :
    lookupP k (eraseP k l) = none := by
  induction l with
  | nil => rfl
  | cons p t ih =>
    by_cases h : p.1 = k
    · simp [eraseP, h, ih]
    · simp [eraseP, h, lookupP, ih]

theorem lookupP_eraseP_ne {x k : K} (h : x ≠ k) (l : List (K × V)) :
    lookupP x (eraseP k l) = lookupP x l := by
  induction l with
  | nil => rfl
  | cons p t ih =>
    by_cases hp : p.1 = k
    · have hpx : ¬ p.1 = x := fun hx => h (by rw [← hx, hp])
      have hkx : ¬ k = x := fun hx => h hx.symm
      simp [eraseP, hp, lookupP, hpx, hkx, ih]
    · simp [eraseP, hp, lookupP, ih]

theorem lookupP_insertP_self (k : K) (v : V) (l : List (K × V)) :
    lookupP k (insertP k v l) = some v := by
  simp [insertP, lookupP]

theorem lookupP_insertP_ne {x k : K} (h : x ≠ k) (v : V) (l : List (K × V)) :
    lookupP x (insertP k v l) = lookupP x l := by
  have hk : ¬ k = x := fun hx => h hx.symm
  simp [insertP, lookupP, hk, lookupP_eraseP_ne h]

theorem eraseP_idem (k : K) (l : List (K × V)) :
    eraseP k (eraseP k l) = eraseP k l := by
  induction l with
  | nil => rfl
  | cons p t ih =>
    by_cases h : p.1 = k
    · simp [eraseP, h, ih]
    · simp [eraseP, h, ih]

theorem lookupP_eq_none_iff {x : K} {l : List (K × V)} :
    lookupP x l = none ↔ x ∉ keysP l := by
  induction l with
  | nil => simp [lookupP, keysP]
  | cons p t ih =>
    by_cases h : p.1 = x
    · simp [lookupP, h, keysP_cons, List.mem_cons]
    · rw [keysP_cons]
      simp only [lookupP, if_neg h, List.mem_cons, not_or, ih]
      constructor
      · intro hnt
        exact ⟨fun hx => h hx.symm, hnt⟩
      · intro hh
        exact hh.2

theorem lookupP_isSome_iff {x : K} {l : List (K × V)} :
    (lookupP x l).isSome ↔ x ∈ keysP l := by
  constructor
  · intro h
    by_contra hx
    rw [← lookupP_eq_none_iff] at hx
    rw [hx] at h
    simp at h
  · intro h
    cases hx : lookupP x l with
    | none => exact absurd h (lookupP_eq_none_iff.mp hx)
    | some v => rfl

theorem lookupP_getD_nil (o : Option (List (K × V))) (y : K) :
    lookupP y (o.getD []) = o.bind (fun m => lookupP y m) := by
  cases o <;> rfl

theorem lookupP_append_of_not_mem {x : K} {l₁ : List (K × V)}
    (h : x ∉ keysP l₁) (l₂ : List (K × V)) :
    lookupP x (l₁ ++ l₂) = lookupP x l₂ := by
  induction l₁ with
  | nil => rfl
  | cons p t ih =>
    rw [keysP_cons, List.mem_cons, not_or] at h
    have h1 : ¬ p.1 = x := fun hx => h.1 hx.symm
    simp [lookupP, h1, ih h.2]

theorem modifyP_eq_of_not_mem {k : K} {l : List (K × V)}
    (h : ∀ p ∈ l, p.1 ≠ k) (f : V → V) : modifyP k f l = l := by
  induction l with
  | nil => rfl
  | cons p t ih =>
    have hp : ¬ p.1 = k := h p (List.mem_cons_self p t)
    rw [modifyP, if_neg hp, ih (fun q hq => h q (List.mem_cons_of_mem p hq))]

theorem modifyP_append (k : K) (f : V → V) (l₁ l₂ : List (K × V)) :
    modifyP k f (l₁ ++ l₂) = modifyP k f l₁ ++ modifyP k f l₂ := by
  induction l₁ with
  | nil => rfl
  | cons p t ih =>
    by_cases h : p.1 = k <;> simp [modifyP, h, ih]

theorem lookupP_modifyP (x k : K) (f : V → V) (l : List (K × V)) :
    lookupP x (modifyP k f l) =
      if x = k then (lookupP k l).map f else lookupP x l := by
  induction l with
  | nil => by_cases h : x = k <;> simp [modifyP, lookupP, h]
  | cons p t ih =>
    by_cases hp : p.1 = k
    · by_cases hx : x = k
      · subst hx
        simp [modifyP, lookupP, hp]
      · have hpx : ¬ p.1 = x := fun hh => hx (by rw [← hh, hp])
        have hkx : ¬ k = x := fun hh => hx hh.symm
        simp [modifyP, lookupP, hp, hpx, hkx, ih, hx]
    · by_cases hx2 : p.1 = x
      · have hxk : ¬ x = k := fun hh => hp (by rw [hx2, hh])
        simp [modifyP, lookupP, hp, hx2, hxk]
      · simp [modifyP, lookupP, hp, hx2, ih]

theorem mem_eraseP {p : K × V} {k : K} {l : List (K × V)} :
    p ∈ eraseP k l → p ∈ l := by
  induction l with
  | nil => intro h; exact h
  | cons q t ih =>
    by_cases hq : q.1 = k
    · intro h
      simp only [eraseP, if_pos hq] at h
      exact List.mem_cons_of_mem q (ih h)
    · intro h
      simp only [eraseP, if_neg hq] at h
      rcases List.mem_cons.mp h with h1 | h2
      · rw [h1]
        exact List.mem_cons_self q t
      · exact List.mem_cons_of_mem q (ih h2)

end AssocList

section GraphModel

variable {K N W : Type} [DecidableEq K]
variable (key : N → K) (dflt : W)

/-! ### Invariant preservation for the graph operations -/

theorem lookupP_insertP_isSome {x k : K} {l : List (K × N)} (v : N)
    (h : (lookupP x l).isSome) : (lookupP x (insertP k v l)).isSome := by
  by_cases hx : x = k
  · subst hx
    rw [lookupP_insertP_self]
    rfl
  · rw [lookupP_insertP_ne hx]
    exact h

theorem lookupP_insert2 {V : Type} (l : List (K × V)) (a b : K) (va vb : V)
    (x : K) :
    lookupP x (insertP b vb (insertP a va l)) =
      if x = b then some vb else if x = a then some va else lookupP x l := by
  by_cases hxb : x = b
  · subst hxb
    rw [lookupP_insertP_self, if_pos rfl]
  · rw [lookupP_insertP_ne hxb, if_neg hxb]
    by_cases hxa : x = a
    · subst hxa
      rw [lookupP_insertP_self, if_pos rfl]
    · rw [lookupP_insertP_ne hxa, if_neg hxa]

/-- How the doubly-nested edge map left behind by `Graph::set_weight` answers
lookups: the two cells of the written pair hold `w`; everything else is as
before. -/
theorem lookup2_setw (E : List (K × List (K × W))) (a b : K) (w : W)
    (x y : K) :
    lookupP y ((lookupP x
        (insertP b
          (insertP a w
            ((lookupP b (insertP a (insertP b w ((lookupP a E).getD []))
              E)).getD []))
          (insertP a (insertP b w ((lookupP a E).getD [])) E))).getD []) =
      if (x = a ∧ y = b) ∨ (x = b ∧ y = a) then some w
      else (lookupP x E).bind (fun m => lookupP y m) := by
  rw [lookupP_insert2]
  by_cases hxb : x = b
  · subst hxb
    rw [if_pos rfl, Option.getD_some]
    by_cases hya : y = a
    · subst hya
      rw [lookupP_insertP_self, if_pos (Or.inr ⟨rfl, rfl⟩)]
    · rw [lookupP_insertP_ne hya]
      have hcnd : ¬ ((x = a ∧ y = x) ∨ (x = x ∧ y = a)) := by
        rintro (⟨h1, h2⟩ | ⟨-, h2⟩)
        · exact hya (h2.trans h1)
        · exact hya h2
      rw [if_neg hcnd]
      by_cases hba : x = a
      · rw [hba, lookupP_insertP_self, Option.getD_some,
          lookupP_insertP_ne hya, lookupP_getD_nil]
      · rw [lookupP_insertP_ne hba, lookupP_getD_nil]
  · rw [if_neg hxb]
    by_cases hxa : x = a
    · subst hxa
      rw [if_pos rfl, Option.getD_some]
      by_cases hyb : y = b
      · subst hyb
        rw [lookupP_insertP_self, if_pos (Or.inl ⟨rfl, rfl⟩)]
      · rw [lookupP_insertP_ne hyb]
        have hcnd : ¬ ((x = x ∧ y = b) ∨ (x = b ∧ y = x)) := by
          rintro (⟨-, h2⟩ | ⟨h1, -⟩)
          · exact hyb h2
          · exact hxb h1
        rw [if_neg hcnd, lookupP_getD_nil]
    · rw [if_neg hxa]
      have hcnd : ¬ ((x = a ∧ y = b) ∨ (x = b ∧ y = a)) := by
        rintro (⟨h1, -⟩ | ⟨h1, -⟩)
        · exact hxa h1
        · exact hxb h1
      rw [if_neg hcnd, lookupP_getD_nil]

theorem Graph.inv_new : Graph.Inv key (Graph.new : Graph K N W) := by
  constructor
  · intro p hp
    cases hp
  · intro a b
    rfl
  · intro a b h
    simp [Graph.edgeLookup, Graph.new, lookupP] at h

theorem Graph.inv_add {g : Graph K N W} (hg : Graph.Inv key g) (n : N) :
    Graph.Inv key (Graph.add_node key g n) := by
  constructor
  · intro p hp
    rcases List.mem_cons.mp hp with h1 | h2
    · rw [h1]
    · exact hg.coher p (mem_eraseP h2)
  · intro a b
    exact hg.symm a b
  · intro a b h
    have hd := hg.dom a b h
    exact ⟨lookupP_insertP_isSome n hd.1, lookupP_insertP_isSome n hd.2⟩

theorem Graph.inv_setw {g g' : Graph K N W} {a b : K} {w prev : W}
    (hg : Graph.Inv key g)
    (h : Graph.set_weight dflt g a b w = some (g', prev)) :
    Graph.Inv key g' := by
  rw [Graph.set_weight] at h
  by_cases hcond :
      ((lookupP a g.nodes).isSome && (lookupP b g.nodes).isSome) = true
  · rw [if_pos hcond] at h
    simp only [Option.some.injEq, Prod.mk.injEq] at h
    obtain ⟨hgeq, -⟩ := h
    rw [Bool.and_eq_true] at hcond
    obtain ⟨ha, hb⟩ := hcond
    have hN := congrArg Graph.nodes hgeq
    dsimp at hN
    have hE := congrArg Graph.edges hgeq
    dsimp at hE
    have char : ∀ x y, Graph.edgeLookup g' x y =
        if (x = a ∧ y = b) ∨ (x = b ∧ y = a) then some w
        else Graph.edgeLookup g x y := by
      intro x y
      rw [Graph.edgeLookup, ← hE, ← lookupP_getD_nil, lookup2_setw]
      rfl
    constructor
    · intro p hp
      rw [← hN] at hp
      exact hg.coher p hp
    · intro x y
      rw [char x y, char y x]
      by_cases h1 : (x = a ∧ y = b) ∨ (x = b ∧ y = a)
      · have h2 : (y = a ∧ x = b) ∨ (y = b ∧ x = a) := by tauto
        rw [if_pos h1, if_pos h2]
      · have h2 : ¬ ((y = a ∧ x = b) ∨ (y = b ∧ x = a)) := by tauto
        rw [if_neg h1, if_neg h2, hg.symm]
    · intro x y hsome
      rw [char x y] at hsome
      rw [← hN]
      by_cases h1 : (x = a ∧ y = b) ∨ (x = b ∧ y = a)
      · rcases h1 with ⟨rfl, rfl⟩ | ⟨rfl, rfl⟩
        · exact ⟨ha, hb⟩
        · exact ⟨hb, ha⟩
      · rw [if_neg h1] at hsome
        exact hg.dom x y hsome
  · rw [if_neg hcond] at h
    cases h

/-- How the edge map left behind by the cleanup loop of `Graph::remove_node`
answers lookups. -/
theorem removeLoop_lookup (k : K) :
    ∀ (sib : List (K × W)) (e e' : List (K × List (K × W))),
      Graph.removeLoop k sib e = some e' →
      ∀ x, lookupP x e' =
        if x ∈ keysP sib then (lookupP x e).map (eraseP k) else lookupP x e := by
  intro sib
  induction sib with
  | nil =>
    intro e e' h x
    rw [Graph.removeLoop, Option.some.injEq] at h
    subst h
    rw [if_neg (by simp [keysP])]
  | cons p rest ih =>
    obtain ⟨s, wv⟩ := p
    intro e e' h x
    rw [Graph.removeLoop] at h
    cases hm : lookupP s e with
    | none =>
      rw [hm] at h
      cases h
    | some m =>
      rw [hm] at h
      rw [ih _ _ h x]
      by_cases hx : x = s
      · subst hx
        rw [keysP_cons]
        rw [if_pos (List.mem_cons_self _ _)]
        by_cases hmem : x ∈ keysP rest
        · rw [if_pos hmem, lookupP_insertP_self, hm]
          simp [eraseP_idem]
        · rw [if_neg hmem, lookupP_insertP_self, hm]
          rfl
      · rw [lookupP_insertP_ne hx, keysP_cons]
        simp [List.mem_cons, hx]

/-- What `Graph::set_weight` leaves behind when it succeeds: nodes
untouched, both directed cells of the pair set to `w`, all other cells
untouched, and the returned previous weight read from `edges[to][from]`
(which is the new weight itself when `from == to`). -/
theorem Graph.setw_char {g g' : Graph K N W} {a b : K} {w prev : W}
    (h : Graph.set_weight dflt g a b w = some (g', prev)) :
    g'.nodes = g.nodes ∧
    (∀ x y, Graph.edgeLookup g' x y =
        if (x = a ∧ y = b) ∨ (x = b ∧ y = a) then some w
        else Graph.edgeLookup g x y) ∧
    prev = (if a = b then w else (Graph.edgeLookup g b a).getD dflt) := by
  rw [Graph.set_weight] at h
  by_cases hcond :
      ((lookupP a g.nodes).isSome && (lookupP b g.nodes).isSome) = true
  · rw [if_pos hcond] at h
    simp only [Option.some.injEq, Prod.mk.injEq] at h
    obtain ⟨hgeq, hprev⟩ := h
    have hN := congrArg Graph.nodes hgeq
    dsimp at hN
    have hE := congrArg Graph.edges hgeq
    dsimp at hE
    refine ⟨hN.symm, ?_, ?_⟩
    · intro x y
      rw [Graph.edgeLookup, ← hE, ← lookupP_getD_nil, lookup2_setw]
      rfl
    · rw [← hprev]
      by_cases hab : a = b
      · rw [if_pos hab, hab]
        simp [lookupP_insertP_self]
      · have hba : ¬ b = a := fun hh => hab hh.symm
        rw [if_neg hab, lookupP_insertP_ne hba, lookupP_getD_nil]
        rfl
  · rw [if_neg hcond] at h
    cases h

/-- What `Graph::remove_node` leaves behind when it succeeds on an
invariant-satisfying graph: the node entry erased, and every edge cell
touching the removed key gone. -/
theorem Graph.remove_char {g g' : Graph K N W} {k : K} {res : Option N}
    (hg : Graph.Inv key g)
    (h : Graph.remove_node g k = some (g', res)) :
    g'.nodes = eraseP k g.nodes ∧
    (∀ x y, Graph.edgeLookup g' x y =
      if x = k ∨ y = k then none else Graph.edgeLookup g x y) := by
  rw [Graph.remove_node] at h
  split at h
  case h_1 hn =>
    simp only [Option.some.injEq, Prod.mk.injEq] at h
    obtain ⟨hgeq, -⟩ := h
    have hN := congrArg Graph.nodes hgeq
    dsimp at hN
    have hE := congrArg Graph.edges hgeq
    dsimp at hE
    refine ⟨hN.symm, ?_⟩
    intro x y
    have hEL : Graph.edgeLookup g' x y = Graph.edgeLookup g x y := by
      rw [Graph.edgeLookup, Graph.edgeLookup, ← hE]
    rw [hEL]
    by_cases hc : x = k ∨ y = k
    · rw [if_pos hc]
      cases hex : Graph.edgeLookup g x y with
      | none => rfl
      | some wv =>
        exfalso
        have hd := hg.dom x y (by rw [hex]; rfl)
        rcases hc with h1 | h1
        · rw [h1, hn] at hd
          exact absurd hd.1 (by simp)
        · rw [h1, hn] at hd
          exact absurd hd.2 (by simp)
    · rw [if_neg hc]
  case h_2 n hn =>
    split at h
    case h_1 he =>
      simp only [Option.some.injEq, Prod.mk.injEq] at h
      obtain ⟨hgeq, -⟩ := h
      have hN := congrArg Graph.nodes hgeq
      dsimp at hN
      have hE := congrArg Graph.edges hgeq
      dsimp at hE
      refine ⟨hN.symm, ?_⟩
      intro x y
      have hEL : Graph.edgeLookup g' x y = Graph.edgeLookup g x y := by
        rw [Graph.edgeLookup, Graph.edgeLookup, ← hE]
      rw [hEL]
      by_cases hxk : x = k
      · rw [if_pos (Or.inl hxk), hxk, Graph.edgeLookup, he]
        rfl
      · by_cases hyk : y = k
        · rw [if_pos (Or.inr hyk), hyk]
          have h1 : Graph.edgeLookup g k x = none := by
            rw [Graph.edgeLookup, he]
            rfl
          rw [hg.symm x k, h1]
        · rw [if_neg (fun hh => Or.elim hh hxk hyk)]
    case h_2 sib he =>
      split at h
      case h_1 hl => cases h
      case h_2 e2 hl =>
        simp only [Option.some.injEq, Prod.mk.injEq] at h
        obtain ⟨hgeq, -⟩ := h
        have hN := congrArg Graph.nodes hgeq
        dsimp at hN
        have hE := congrArg Graph.edges hgeq
        dsimp at hE
        have hE2 := removeLoop_lookup k sib _ _ hl
        refine ⟨hN.symm, ?_⟩
        intro x y
        rw [Graph.edgeLookup, ← hE, hE2 x]
        by_cases hxk : x = k
        · rw [if_pos (Or.inl hxk), hxk, lookupP_eraseP_self]
          by_cases hmem : k ∈ keysP sib
          · rw [if_pos hmem]
            rfl
          · rw [if_neg hmem]
            rfl
        · by_cases hyk : y = k
          · rw [if_pos (Or.inr hyk), lookupP_eraseP_ne hxk]
            by_cases hmem : x ∈ keysP sib
            · rw [if_pos hmem]
              cases hgx : lookupP x g.edges with
              | none => rfl
              | some m => simp [hyk, lookupP_eraseP_self]
            · rw [if_neg hmem]
              have h1 : Graph.edgeLookup g k x = none := by
                rw [Graph.edgeLookup, he]
                exact lookupP_eq_none_iff.mpr hmem
              have h2 := (hg.symm x k).trans h1
              rw [Graph.edgeLookup] at h2
              rw [hyk]
              exact h2
          · rw [if_neg (fun hh => Or.elim hh hxk hyk), lookupP_eraseP_ne hxk]
            by_cases hmem : x ∈ keysP sib
            · rw [if_pos hmem]
              cases hgx : lookupP x g.edges with
              | none => simp [Graph.edgeLookup, hgx]
              | some m => simp [Graph.edgeLookup, hgx, lookupP_eraseP_ne hyk]
            · rw [if_neg hmem]
              rfl

theorem Graph.inv_remove {g g' : Graph K N W} {k : K} {res : Option N}
    (hg : Graph.Inv key g)
    (h : Graph.remove_node g k = some (g', res)) :
    Graph.Inv key g' := by
  obtain ⟨hN, hC⟩ := Graph.remove_char key hg h
  constructor
  · intro p hp
    rw [hN] at hp
    exact hg.coher p (mem_eraseP hp)
  · intro x y
    rw [hC x y, hC y x]
    by_cases h1 : x = k ∨ y = k
    · rw [if_pos h1, if_pos (by tauto)]
    · rw [if_neg h1, if_neg (by tauto), hg.symm]
  · intro x y hsome
    rw [hC x y] at hsome
    by_cases h1 : x = k ∨ y = k
    · rw [if_pos h1] at hsome
      simp at hsome
    · rw [if_neg h1] at hsome
      have hd := hg.dom x y hsome
      rw [not_or] at h1
      rw [hN]
      exact ⟨by rw [lookupP_eraseP_ne h1.1]; exact hd.1,
             by rw [lookupP_eraseP_ne h1.2]; exact hd.2⟩

/-- Every reachable graph satisfies the structural invariant. -/
theorem Graph.reach_inv {g : Graph K N W} (h : Graph.Reach key dflt g) :
    Graph.Inv key g := by
  induction h with
  | new => exact Graph.inv_new key
  | add n hr ih => exact Graph.inv_add key ih n
  | setw hr hs ih => exact Graph.inv_setw key dflt ih hs
  | remove hr hs ih => exact Graph.inv_remove key ih hs

end GraphModel

/-! ## Claims about `src/graph.rs` -/

theorem mem_eraseP_ne {K V : Type} [DecidableEq K] {p : K × V} {k : K}
    {l : List (K × V)} : p ∈ eraseP k l → p.1 ≠ k := by
  induction l with
  | nil => intro h; cases h
  | cons q t ih =>
    by_cases hq : q.1 = k
    · intro h
      simp only [eraseP, if_pos hq] at h
      exact ih h
    · intro h
      simp only [eraseP, if_neg hq] at h
      rcases List.mem_cons.mp h with h1 | h2
      · rw [h1]
        exact hq
      · exact ih h2

/-- C2: in every graph state reachable by a sequence of `add_node`,
`set_weight` and `remove_node` operations, `get_weight(a,b) ==
get_weight(b,a)` for all present keys, and whenever `edges[a][b]` is stored,
`edges[b][a]` is stored with the same weight. -/
theorem C2_symmetry {K N W : Type} [DecidableEq K] (key : N → K) (dflt : W)
    {g : Graph K N W} (hreach : Graph.Reach key dflt g) :
    (∀ a b, (lookupP a g.nodes).isSome → (lookupP b g.nodes).isSome →
      Graph.get_weight dflt g a b = Graph.get_weight dflt g b a) ∧
    (∀ a b w, Graph.edgeLookup g a b = some w →
      Graph.edgeLookup g b a = some w) := by
  have hinv := Graph.reach_inv key dflt hreach
  constructor
  · intro a b _ _
    show (Graph.edgeLookup g a b).getD dflt = (Graph.edgeLookup g b a).getD dflt
    rw [hinv.symm]
  · intro a b w h
    rw [← hinv.symm, h]

/-- Witness for C2 on a concrete reachable graph
(`add_node 1; add_node 2; set_weight 1 2 5`). -/
theorem C2_symmetry_witness :
    Graph.get_weight (0 : ℕ)
      (⟨[(2, 2), (1, 1)], [(2, [(1, 5)]), (1, [(2, 5)])]⟩ : Graph ℕ ℕ ℕ) 1 2 =
    Graph.get_weight (0 : ℕ)
      (⟨[(2, 2), (1, 1)], [(2, [(1, 5)]), (1, [(2, 5)])]⟩ : Graph ℕ ℕ ℕ) 2 1 := by
  have h1 : Graph.set_weight (0 : ℕ)
      (Graph.add_node (fun v : ℕ => v)
        (Graph.add_node (fun v : ℕ => v) Graph.new 1) 2) 1 2 5 =
      some (⟨[(2, 2), (1, 1)], [(2, [(1, 5)]), (1, [(2, 5)])]⟩, 0) := by decide
  have hr := Graph.Reach.setw
    (Graph.Reach.add 2 (Graph.Reach.add 1 Graph.Reach.new)) h1
  exact (C2_symmetry (fun v : ℕ => v) 0 hr).1 1 2 (by decide) (by decide)

/-- C6: `get_weight` is total by construction (it always returns a `W`) and
returns the default weight for every pair with no stored entry; in a
reachable graph this covers every pair with an absent endpoint, and the
`a = b` case is the no-entry case of the first part. -/
theorem C6_get_weight_total {K N W : Type} [DecidableEq K] (key : N → K)
    (dflt : W) (g : Graph K N W) (a b : K) :
    (Graph.edgeLookup g a b = none → Graph.get_weight dflt g a b = dflt) ∧
    (Graph.Reach key dflt g →
      lookupP a g.nodes = none ∨ lookupP b g.nodes = none →
      Graph.get_weight dflt g a b = dflt) := by
  constructor
  · intro h
    show (Graph.edgeLookup g a b).getD dflt = dflt
    rw [h]
    rfl
  · intro hreach habs
    have hinv := Graph.reach_inv key dflt hreach
    have hnone : Graph.edgeLookup g a b = none := by
      cases he : Graph.edgeLookup g a b with
      | none => rfl
      | some w =>
        exfalso
        have hd := hinv.dom a b (by rw [he]; rfl)
        rcases habs with h1 | h1
        · rw [h1] at hd
          exact absurd hd.1 (by simp)
        · rw [h1] at hd
          exact absurd hd.2 (by simp)
    show (Graph.edgeLookup g a b).getD dflt = dflt
    rw [hnone]
    rfl

/-- Witness for C6: a pair never set, and a pair with an absent endpoint, on
a concrete reachable graph. -/
theorem C6_get_weight_total_witness :
    Graph.get_weight (0 : ℕ)
      (Graph.add_node (fun v : ℕ => v) (Graph.new : Graph ℕ ℕ ℕ) 3) 3 3 = 0 ∧
    Graph.get_weight (0 : ℕ)
      (Graph.add_node (fun v : ℕ => v) (Graph.new : Graph ℕ ℕ ℕ) 3) 9 3 = 0 :=
  ⟨(C6_get_weight_total (fun v : ℕ => v) 0 _ 3 3).1 (by decide),
   (C6_get_weight_total (fun v : ℕ => v) 0 _ 9 3).2
     (Graph.Reach.add 3 Graph.Reach.new) (Or.inl (by decide))⟩

/-- C7 (amended): `set_weight(a, b, w)` panics exactly when an endpoint is
absent; on success it stores `w` in both `edges[a][b]` and `edges[b][a]`;
for `a ≠ b` it returns the weight previously stored for the pair (default
if none), but for `a = b` it returns `w` itself, because the second
insertion reads back the value the first insertion just wrote. -/
theorem C7_set_weight_amended {K N W : Type} [DecidableEq K] (key : N → K)
    (dflt : W) {g : Graph K N W} (hreach : Graph.Reach key dflt g)
    (a b : K) (w : W) :
    ((lookupP a g.nodes = none ∨ lookupP b g.nodes = none) →
      Graph.set_weight dflt g a b w = none) ∧
    (∀ g' prev, Graph.set_weight dflt g a b w = some (g', prev) →
      Graph.edgeLookup g' a b = some w ∧ Graph.edgeLookup g' b a = some w) ∧
    (∀ g' prev, Graph.set_weight dflt g a b w = some (g', prev) → a ≠ b →
      prev = (Graph.edgeLookup g a b).getD dflt) ∧
    (∀ g' prev, Graph.set_weight dflt g a b w = some (g', prev) → a = b →
      prev = w) := by
  have hinv := Graph.reach_inv key dflt hreach
  refine ⟨?_, ?_, ?_, ?_⟩
  · intro habs
    have hc : ¬ ((lookupP a g.nodes).isSome &&
        (lookupP b g.nodes).isSome) = true := by
      rcases habs with h1 | h1 <;> simp [h1]
    rw [Graph.set_weight, if_neg hc]
  · intro g' prev h
    have hc := Graph.setw_char dflt h
    constructor
    · rw [hc.2.1 a b, if_pos (Or.inl ⟨rfl, rfl⟩)]
    · rw [hc.2.1 b a, if_pos (Or.inr ⟨rfl, rfl⟩)]
  · intro g' prev h hab
    have hc := Graph.setw_char dflt h
    rw [hc.2.2, if_neg hab, hinv.symm]
  · intro g' prev h hab
    have hc := Graph.setw_char dflt h
    rw [hc.2.2, if_pos hab]

/-- Counterexample to C7 as stated: with `a = b = 4` on a fresh pair and
`w = 7`, `set_weight` returns `7`, although nothing was previously stored
for the pair and the default weight is `0`. -/
theorem C7_counterexample :
    (Graph.set_weight (0 : ℕ)
      (Graph.add_node (fun v : ℕ => v) (Graph.new : Graph ℕ ℕ ℕ) 4)
      4 4 7).map Prod.snd = some 7 ∧
    Graph.edgeLookup
      (Graph.add_node (fun v : ℕ => v) (Graph.new : Graph ℕ ℕ ℕ) 4) 4 4 =
      none ∧
    (7 : ℕ) ≠ 0 := by
  refine ⟨by decide, by decide, by decide⟩

/-- Witness for C7 on concrete graphs: the panic case and the `a ≠ b`
success case. -/
theorem C7_set_weight_amended_witness :
    Graph.set_weight (0 : ℕ)
      (Graph.add_node (fun v : ℕ => v) (Graph.new : Graph ℕ ℕ ℕ) 4) 4 9 3 =
      none ∧
    Graph.set_weight (0 : ℕ)
      (⟨[(2, 2), (1, 1)], [(2, [(1, 5)]), (1, [(2, 5)])]⟩ : Graph ℕ ℕ ℕ)
      1 2 8 = some (⟨[(2, 2), (1, 1)], [(2, [(1, 8)]), (1, [(2, 8)])]⟩, 5) ∧
    (5 : ℕ) =
      (Graph.edgeLookup
        (⟨[(2, 2), (1, 1)], [(2, [(1, 5)]), (1, [(2, 5)])]⟩ : Graph ℕ ℕ ℕ)
        1 2).getD 0 := by
  have h1 : Graph.set_weight (0 : ℕ)
      (Graph.add_node (fun v : ℕ => v)
        (Graph.add_node (fun v : ℕ => v) Graph.new 1) 2) 1 2 5 =
      some (⟨[(2, 2), (1, 1)], [(2, [(1, 5)]), (1, [(2, 5)])]⟩, 0) := by decide
  have hr := Graph.Reach.setw
    (Graph.Reach.add 2 (Graph.Reach.add 1 Graph.Reach.new)) h1
  refine ⟨?_, by decide, ?_⟩
  · exact (C7_set_weight_amended (fun v : ℕ => v) 0
      (Graph.Reach.add 4 Graph.Reach.new) 4 9 3).1 (Or.inr (by decide))
  · exact (C7_set_weight_amended (fun v : ℕ => v) 0 hr 1 2 8).2.2.1
      (⟨[(2, 2), (1, 1)], [(2, [(1, 8)]), (1, [(2, 8)])]⟩ : Graph ℕ ℕ ℕ) 5
      (by decide) (by decide)

/-- C8: after a successful `remove_node k`, for every remaining node `j`
the key `k` appears among neither the nodes yielded by `edges(j)` nor the
stored weights: `get_weight(j, k)` is the default again. -/
theorem C8_removal_cascade {K N W : Type} [DecidableEq K] (key : N → K)
    (dflt : W) {g : Graph K N W} (hreach : Graph.Reach key dflt g) (k : K)
    {g' : Graph K N W} {res : Option N}
    (h : Graph.remove_node g k = some (g', res)) :
    ∀ j nj, lookupP j g'.nodes = some nj →
      (∀ pr ∈ Graph.edgesOf key dflt g' j, key pr.1 ≠ k) ∧
      Graph.get_weight dflt g' j k = dflt := by
  have hinv := Graph.reach_inv key dflt hreach
  obtain ⟨hN, hC⟩ := Graph.remove_char key hinv h
  intro j nj hj
  constructor
  · intro pr hpr
    simp only [Graph.edgesOf] at hpr
    obtain ⟨n0, hn0, hpr'⟩ := List.mem_map.mp hpr
    obtain ⟨hn0m, -⟩ := List.mem_filter.mp hn0
    obtain ⟨p0, hp0, hp0'⟩ := List.mem_map.mp hn0m
    rw [hN] at hp0
    have hkey : key p0.2 = p0.1 := hinv.coher p0 (mem_eraseP hp0)
    have hne : p0.1 ≠ k := mem_eraseP_ne hp0
    rw [← hpr']
    show key n0 ≠ k
    rw [← hp0', hkey]
    exact hne
  · show (Graph.edgeLookup g' j k).getD dflt = dflt
    rw [hC j k, if_pos (Or.inr rfl)]
    rfl

/-- Witness for C8: remove node 2 from the concrete reachable graph with the
edge `(1, 2) ↦ 5`; the weight from the remaining node 1 towards 2 is the
default again. -/
theorem C8_removal_cascade_witness :
    Graph.get_weight (0 : ℕ) (⟨[(1, 1)], [(1, [])]⟩ : Graph ℕ ℕ ℕ) 1 2 = 0 := by
  have h1 : Graph.set_weight (0 : ℕ)
      (Graph.add_node (fun v : ℕ => v)
        (Graph.add_node (fun v : ℕ => v) Graph.new 1) 2) 1 2 5 =
      some (⟨[(2, 2), (1, 1)], [(2, [(1, 5)]), (1, [(2, 5)])]⟩, 0) := by decide
  have hr := Graph.Reach.setw
    (Graph.Reach.add 2 (Graph.Reach.add 1 Graph.Reach.new)) h1
  have h2 : Graph.remove_node
      (⟨[(2, 2), (1, 1)], [(2, [(1, 5)]), (1, [(2, 5)])]⟩ : Graph ℕ ℕ ℕ) 2 =
      some (⟨[(1, 1)], [(1, [])]⟩, some 2) := by decide
  exact (C8_removal_cascade (fun v : ℕ => v) 0 hr 2 h2 1 1 (by decide)).2

/-- C10: `add_node` with an already-present key replaces only the stored
node value; the edge storage is untouched, so previously set weights are
still returned. -/
theorem C10_add_node_frame {K N W : Type} [DecidableEq K] (key : N → K)
    (dflt : W) (g : Graph K N W) (n : N)
    (hpresent : (lookupP (key n) g.nodes).isSome) :
    (Graph.add_node key g n).edges = g.edges ∧
    Graph.get_node (Graph.add_node key g n) (key n) = some n ∧
    (∀ a b, Graph.get_weight dflt (Graph.add_node key g n) a b =
      Graph.get_weight dflt g a b) ∧
    (∀ b w, Graph.edgeLookup g (key n) b = some w →
      Graph.get_weight dflt (Graph.add_node key g n) (key n) b = w) := by
  refine ⟨rfl, ?_, ?_, ?_⟩
  · show lookupP (key n) (insertP (key n) n g.nodes) = some n
    exact lookupP_insertP_self _ _ _
  · intro a b
    rfl
  · intro b w h
    show (Graph.edgeLookup g (key n) b).getD dflt = w
    rw [h]
    rfl

/-- Witness for C10: re-adding key 5 to a graph that stores weight 9 for the
pair (5, 6) keeps that weight. -/
theorem C10_add_node_frame_witness :
    Graph.get_weight (0 : ℕ)
      (Graph.add_node (fun v : ℕ => v)
        (⟨[(5, 5), (6, 6)], [(5, [(6, 9)]), (6, [(5, 9)])]⟩ : Graph ℕ ℕ ℕ) 5)
      5 6 = 9 :=
  (C10_add_node_frame (fun v : ℕ => v) 0
    (⟨[(5, 5), (6, 6)], [(5, [(6, 9)]), (6, [(5, 9)])]⟩ : Graph ℕ ℕ ℕ) 5
    (by decide)).2.2.2 6 9 (by decide)


/-! ## Helper lemmas for the recorder -/

namespace LottieGraph

theorem set_position_found {h : History} {id : ℕ} {n : Node} (pos : Vec2d)
    (hl : lookupP id h.openRecs = some n) :
    History.set_position h id pos =
      some ({ h with
        openRecs := modifyP id (fun m => m.push_pos pos) h.openRecs }) := by
  rw [History.set_position, hl]

theorem set_position_chain {h : History} {id : ℕ} {n : Node}
    (hl : lookupP id h.openRecs = some n) (pos : Vec2d) :
    ∃ h', History.set_position h id pos = some h' ∧
      lookupP id h'.openRecs = some (n.push_pos pos) ∧ h'.step = h.step := by
  refine ⟨_, set_position_found pos hl, ?_, rfl⟩
  show lookupP id (modifyP id (fun m => m.push_pos pos) h.openRecs) = _
  rw [lookupP_modifyP, if_pos rfl, hl]
  rfl

theorem push_pos_inband (st : ℕ) (co : Colour) (F : List Frame) (q : Vec2d)
    (j : ℕ) (p : Vec2d)
    (hband : (Rcontains (q - p).x && Rcontains (q - p).y) = true) :
    Node.push_pos ⟨st, co, F ++ [⟨q, j⟩]⟩ p = ⟨st, co, F ++ [⟨q, j + 1⟩]⟩ := by
  rw [Node.push_pos]
  dsimp only
  rw [List.getLast?_concat]
  dsimp only
  rw [if_pos hband, List.dropLast_concat]

theorem push_pos_newframe (st : ℕ) (co : Colour) (F : List Frame)
    (q : Vec2d) (j : ℕ) (p : Vec2d)
    (hband : (Rcontains (q - p).x && Rcontains (q - p).y) = false) :
    Node.push_pos ⟨st, co, F ++ [⟨q, j⟩]⟩ p =
      ⟨st, co, (F ++ [⟨q, j⟩]) ++ [⟨p, 1⟩]⟩ := by
  rw [Node.push_pos]
  dsimp only
  rw [List.getLast?_concat]
  dsimp only
  rw [if_neg (by rw [hband]; exact Bool.false_ne_true)]

theorem push_pos_empty {n : Node} (hf : n.frames = []) (p : Vec2d) :
    n.push_pos p = ⟨n.start, n.colour, [⟨p, 1⟩]⟩ := by
  obtain ⟨st, co, fr⟩ := n
  dsimp only at hf
  subst hf
  rfl

theorem push_pos_empty_frames {n : Node} (hf : n.frames = []) (p : Vec2d) :
    (n.push_pos p).frames = [⟨p, 1⟩] := by
  rw [push_pos_empty hf p]

theorem push_pos_inband_frames {n : Node} {F : List Frame} {q : Vec2d}
    {j : ℕ} (hf : n.frames = F ++ [⟨q, j⟩]) (p : Vec2d)
    (hband : (Rcontains (q - p).x && Rcontains (q - p).y) = true) :
    (n.push_pos p).frames = F ++ [⟨q, j + 1⟩] := by
  obtain ⟨st, co, fr⟩ := n
  dsimp only at hf
  subst hf
  rw [push_pos_inband st co F q j p hband]

theorem push_pos_newframe_frames {n : Node} {F : List Frame} {q : Vec2d}
    {j : ℕ} (hf : n.frames = F ++ [⟨q, j⟩]) (p : Vec2d)
    (hband : (Rcontains (q - p).x && Rcontains (q - p).y) = false) :
    (n.push_pos p).frames = (F ++ [⟨q, j⟩]) ++ [⟨p, 1⟩] := by
  obtain ⟨st, co, fr⟩ := n
  dsimp only at hf
  subst hf
  rw [push_pos_newframe st co F q j p hband]

theorem push_pos_run {n : Node} {p0 : Vec2d} {j : ℕ}
    (hf : n.frames = [⟨p0, j⟩]) :
    n.push_pos p0 = ⟨n.start, n.colour, [⟨p0, j + 1⟩]⟩ := by
  obtain ⟨st, co, fr⟩ := n
  dsimp only at hf
  subst hf
  have hband : (Rcontains (p0 - p0).x && Rcontains (p0 - p0).y) = true := by
    have hzero : p0 - p0 = Vec2d.new 0 0 := by
      show Vec2d.mk (p0.x - p0.x) (p0.y - p0.y) = Vec2d.new 0 0
      rw [sub_self, sub_self]
      rfl
    rw [hzero]
    decide
  simpa using push_pos_inband st co [] p0 j p0 hband

theorem feedList_run (st : ℕ) (co : Colour) (p0 : Vec2d) :
    ∀ (ps : List Vec2d) (j : ℕ),
      (∀ q ∈ ps, (Rcontains (p0 - q).x && Rcontains (p0 - q).y) = true) →
      (Node.feedList ⟨st, co, [⟨p0, j⟩]⟩ ps).frames = [⟨p0, j + ps.length⟩] := by
  intro ps
  induction ps with
  | nil =>
    intro j hband
    rw [Node.feedList]
    rfl
  | cons q qs ih =>
    intro j hband
    rw [Node.feedList]
    have hq := hband q (List.mem_cons_self q qs)
    have hpush := push_pos_inband st co [] p0 j q hq
    simp only [List.nil_append] at hpush
    rw [hpush]
    rw [ih (j + 1) (fun r hr => hband r (List.mem_cons_of_mem q hr))]
    have harith : j + 1 + qs.length = j + (q :: qs).length := by
      simp only [List.length_cons]
      omega
    rw [harith]

theorem feedSame_run :
    ∀ (k : ℕ) (h : History) (id : ℕ) (pos : Vec2d) (n : Node) (j : ℕ),
      lookupP id h.openRecs = some n → n.frames = [⟨pos, j + 1⟩] →
      ∃ h', feedSame h id pos k = some h' ∧
        ∃ n', lookupP id h'.openRecs = some n' ∧
          n'.frames = [⟨pos, j + 1 + k⟩] := by
  intro k
  induction k with
  | zero =>
    intro h id pos n j hl hf
    exact ⟨h, rfl, n, hl, by rw [hf]⟩
  | succ k ih =>
    intro h id pos n j hl hf
    obtain ⟨h1, he1, hl1, -⟩ := set_position_chain hl pos
    rw [feedSame, he1]
    have hl2 : lookupP id ((h1.next_step).openRecs) = some (n.push_pos pos) :=
      hl1
    have hf2 : (n.push_pos pos).frames = [⟨pos, (j + 1) + 1⟩] := by
      rw [push_pos_run hf]
    obtain ⟨h', hfeed, n', hln, hfr⟩ :=
      ih h1.next_step id pos (n.push_pos pos) (j + 1) hl2 hf2
    refine ⟨h', hfeed, n', hln, ?_⟩
    rw [hfr]
    have harith : j + 1 + 1 + k = j + 1 + (k + 1) := by omega
    rw [harith]

theorem feedSame_fresh (h : History) (id : ℕ) (colour : ℕ × ℕ × ℕ)
    (pos : Vec2d) (k : ℕ) :
    ∃ h', feedSame (h.add_node id colour) id pos (k + 1) = some h' ∧
      ∃ n', lookupP id h'.openRecs = some n' ∧ n'.frames = [⟨pos, k + 1⟩] := by
  obtain ⟨nd, hl, hfr⟩ : ∃ nd : Node,
      lookupP id ((h.add_node id colour).openRecs) = some nd ∧
      nd.frames = [] :=
    ⟨_, lookupP_insertP_self _ _ _, rfl⟩
  obtain ⟨h1, he1, hl1, -⟩ := set_position_chain hl pos
  rw [feedSame, he1]
  have hf1 : (nd.push_pos pos).frames = [⟨pos, 0 + 1⟩] := by
    rw [push_pos_empty_frames hfr pos]
  obtain ⟨h', hfeed, n', hln, hfr'⟩ :=
    feedSame_run k h1.next_step id pos (nd.push_pos pos) 0 hl1 hf1
  refine ⟨h', hfeed, n', hln, ?_⟩
  rw [hfr']
  have harith : 0 + 1 + k = k + 1 := by omega
  rw [harith]

end LottieGraph

/-! ## Claims about `src/lottie_graph.rs` -/

/-- C3 (amended): on an id with no open record, `set_position` fails fast
(the underlying `unwrap` panics), but `remove_node` is a silent no-op and
returns the recorder unchanged. -/
theorem C3_unknown_id_amended (h : LottieGraph.History) (id : ℕ)
    (pos : Vec2d) (habs : lookupP id h.openRecs = none) :
    LottieGraph.History.set_position h id pos = none ∧
    LottieGraph.History.remove_node h id = h := by
  constructor
  · rw [LottieGraph.History.set_position, habs]
  · rw [LottieGraph.History.remove_node, habs]

/-- Counterexample to C3 as stated: `remove_node` on an id with no open
record does not fail — it is a no-op returning the recorder unchanged. -/
theorem C3_counterexample :
    LottieGraph.History.remove_node LottieGraph.History.new 5 =
      LottieGraph.History.new := by
  rfl

/-- Witness for C3 (amended) at the empty recorder. -/
theorem C3_unknown_id_amended_witness :
    LottieGraph.History.set_position LottieGraph.History.new 5
      (Vec2d.new 1 2) = none ∧
    LottieGraph.History.remove_node LottieGraph.History.new 5 =
      LottieGraph.History.new :=
  C3_unknown_id_amended LottieGraph.History.new 5 (Vec2d.new 1 2) rfl

/-- C4 (amended): for a freshly opened record (no frames recorded yet),
feeding the recorder the same position for `k ≥ 1` consecutive ticks (one
`set_position` then one `next_step` per tick) yields exactly one frame for
that node, whose run length equals `k`. -/
theorem C4_static_amended (h : LottieGraph.History) (id : ℕ)
    (colour : ℕ × ℕ × ℕ) (pos : Vec2d) (k : ℕ) (hk : 1 ≤ k) :
    ∃ h', LottieGraph.feedSame (h.add_node id colour) id pos k = some h' ∧
      ∃ n', lookupP id h'.openRecs = some n' ∧ n'.frames = [⟨pos, k⟩] := by
  obtain ⟨k', rfl⟩ : ∃ k', k = k' + 1 := ⟨k - 1, by omega⟩
  exact LottieGraph.feedSame_fresh h id colour pos k'

/-- Counterexample to C4 as stated: an open record that already holds a
frame recorded at the same position.  Feeding the same position for `k = 1`
consecutive tick yields one frame whose run length is `2`, not `k = 1`. -/
theorem C4_counterexample :
    ∃ h1 h2,
      LottieGraph.History.set_position
        (LottieGraph.History.new.add_node 7 (0, 0, 0)) 7 (Vec2d.new 5 5) =
        some h1 ∧
      LottieGraph.feedSame h1.next_step 7 (Vec2d.new 5 5) 1 = some h2 ∧
      (lookupP 7 h2.openRecs).map LottieGraph.Node.frames =
        some [⟨Vec2d.new 5 5, 2⟩] ∧
      (2 : ℕ) ≠ 1 := by
  obtain ⟨nd, hl, hfr⟩ : ∃ nd : LottieGraph.Node,
      lookupP 7 ((LottieGraph.History.new.add_node 7 (0, 0, 0)).openRecs) =
        some nd ∧ nd.frames = [] :=
    ⟨_, lookupP_insertP_self _ _ _, rfl⟩
  obtain ⟨h1, he1, hl1, -⟩ :=
    LottieGraph.set_position_chain hl (Vec2d.new 5 5)
  have hf1 : (nd.push_pos (Vec2d.new 5 5)).frames = [⟨Vec2d.new 5 5, 0 + 1⟩] := by
    rw [LottieGraph.push_pos_empty_frames hfr]
  obtain ⟨h2, hfeed, n2, hl2, hfr2⟩ :=
    LottieGraph.feedSame_run 1 h1.next_step 7 (Vec2d.new 5 5)
      (nd.push_pos (Vec2d.new 5 5)) 0 hl1 hf1
  refine ⟨h1, h2, he1, hfeed, ?_, by decide⟩
  rw [hl2]
  simp only [Option.map_some']
  rw [hfr2]

/-- Witness for C4 (amended) with `k = 2` on a freshly added node. -/
theorem C4_static_amended_witness :
    ∃ h', LottieGraph.feedSame
        (LottieGraph.History.new.add_node 7 (0, 0, 0)) 7 (Vec2d.new 5 5) 2 =
        some h' ∧
      ∃ n', lookupP 7 h'.openRecs = some n' ∧
        n'.frames = [⟨Vec2d.new 5 5, 2⟩] :=
  C4_static_amended LottieGraph.History.new 7 (0, 0, 0) (Vec2d.new 5 5) 2
    (by decide)

/-- C5 (amended): change detection compares the new position against the
last frame's RECORDED position (the run's anchor), not against the previous
tick's position.  A sequence of positions whose deltas from the anchor stay
inside the `[-1, 1)` band on both axes collapses into the anchor's single
frame; a position whose delta from the anchor leaves the band starts a new
frame of run length 1. -/
theorem C5_drift_amended :
    (∀ (st : ℕ) (co : LottieGraph.Colour) (p0 : Vec2d) (ps : List Vec2d),
      (∀ q ∈ ps, (LottieGraph.Rcontains (p0 - q).x &&
        LottieGraph.Rcontains (p0 - q).y) = true) →
      (LottieGraph.Node.feedList
        (LottieGraph.Node.push_pos ⟨st, co, []⟩ p0) ps).frames =
        [⟨p0, 1 + ps.length⟩]) ∧
    (∀ (st : ℕ) (co : LottieGraph.Colour) (F : List LottieGraph.Frame)
      (q : Vec2d) (j : ℕ) (p : Vec2d),
      (LottieGraph.Rcontains (q - p).x &&
        LottieGraph.Rcontains (q - p).y) = false →
      (LottieGraph.Node.push_pos ⟨st, co, F ++ [⟨q, j⟩]⟩ p).frames =
        (F ++ [⟨q, j⟩]) ++ [⟨p, 1⟩]) := by
  constructor
  · intro st co p0 ps hps
    have h1 : LottieGraph.Node.push_pos ⟨st, co, []⟩ p0 =
        ⟨st, co, [⟨p0, 1⟩]⟩ := rfl
    rw [h1]
    rw [LottieGraph.feedList_run st co p0 ps 1 hps]
  · intro st co F q j p hband
    rw [LottieGraph.push_pos_newframe st co F q j p hband]

/-- Counterexample to C5 as stated: the positions (0,0), (3/5,0), (6/5,0)
have consecutive per-tick deltas strictly inside the tolerance band, yet the
recorder produces two frames — the third position has drifted out of the
band around the first frame's recorded position. -/
theorem C5_counterexample :
    (LottieGraph.Rcontains (Vec2d.new 0 0 - Vec2d.new (3/5) 0).x &&
      LottieGraph.Rcontains (Vec2d.new 0 0 - Vec2d.new (3/5) 0).y) = true ∧
    (LottieGraph.Rcontains (Vec2d.new (3/5) 0 - Vec2d.new (6/5) 0).x &&
      LottieGraph.Rcontains (Vec2d.new (3/5) 0 - Vec2d.new (6/5) 0).y) = true ∧
    ∃ h1 h2 h3,
      LottieGraph.History.set_position
        (LottieGraph.History.new.add_node 7 (0, 0, 0)) 7 (Vec2d.new 0 0) =
        some h1 ∧
      LottieGraph.History.set_position h1 7 (Vec2d.new (3/5) 0) = some h2 ∧
      LottieGraph.History.set_position h2 7 (Vec2d.new (6/5) 0) = some h3 ∧
      (lookupP 7 h3.openRecs).map (fun n => n.frames.length) = some 2 ∧
      (2 : ℕ) ≠ 1 := by
  refine ⟨?_, ?_, ?_⟩
  · show (LottieGraph.Rcontains ((0 : ℚ) - 3/5) &&
      LottieGraph.Rcontains ((0 : ℚ) - 0)) = true
    simp only [LottieGraph.Rcontains, Bool.and_eq_true, decide_eq_true_eq]
    norm_num
  · show (LottieGraph.Rcontains ((3/5 : ℚ) - 6/5) &&
      LottieGraph.Rcontains ((0 : ℚ) - 0)) = true
    simp only [LottieGraph.Rcontains, Bool.and_eq_true, decide_eq_true_eq]
    norm_num
  · obtain ⟨nd, hl0, hfr0⟩ : ∃ nd : LottieGraph.Node,
        lookupP 7 ((LottieGraph.History.new.add_node 7 (0, 0, 0)).openRecs) =
          some nd ∧ nd.frames = [] :=
      ⟨_, lookupP_insertP_self _ _ _, rfl⟩
    obtain ⟨h1, he1, hl1, -⟩ :=
      LottieGraph.set_position_chain hl0 (Vec2d.new 0 0)
    obtain ⟨h2, he2, hl2, -⟩ :=
      LottieGraph.set_position_chain hl1 (Vec2d.new (3/5) 0)
    obtain ⟨h3, he3, hl3, -⟩ :=
      LottieGraph.set_position_chain hl2 (Vec2d.new (6/5) 0)
    have f1 : (nd.push_pos (Vec2d.new 0 0)).frames = [⟨Vec2d.new 0 0, 1⟩] :=
      LottieGraph.push_pos_empty_frames hfr0 (Vec2d.new 0 0)
    have hb2 : (LottieGraph.Rcontains
        (Vec2d.new 0 0 - Vec2d.new (3/5) 0).x &&
        LottieGraph.Rcontains (Vec2d.new 0 0 - Vec2d.new (3/5) 0).y) = true := by
      show (LottieGraph.Rcontains ((0 : ℚ) - 3/5) &&
        LottieGraph.Rcontains ((0 : ℚ) - 0)) = true
      simp only [LottieGraph.Rcontains, Bool.and_eq_true, decide_eq_true_eq]
      norm_num
    have f2 : ((nd.push_pos (Vec2d.new 0 0)).push_pos
        (Vec2d.new (3/5) 0)).frames = [] ++ [⟨Vec2d.new 0 0, 2⟩] :=
      LottieGraph.push_pos_inband_frames (by rw [f1]; rfl)
        (Vec2d.new (3/5) 0) hb2
    have hb3 : (LottieGraph.Rcontains
        (Vec2d.new 0 0 - Vec2d.new (6/5) 0).x &&
        LottieGraph.Rcontains (Vec2d.new 0 0 - Vec2d.new (6/5) 0).y) = false := by
      show (LottieGraph.Rcontains ((0 : ℚ) - 6/5) &&
        LottieGraph.Rcontains ((0 : ℚ) - 0)) = false
      have hfalse : decide ((-1 : ℚ) ≤ 0 - 6/5) = false := by
        rw [decide_eq_false_iff_not]
        norm_num
      simp only [LottieGraph.Rcontains]
      rw [hfalse]
      rfl
    have f3 : (((nd.push_pos (Vec2d.new 0 0)).push_pos
        (Vec2d.new (3/5) 0)).push_pos (Vec2d.new (6/5) 0)).frames =
        (([] : List LottieGraph.Frame) ++ [⟨Vec2d.new 0 0, 2⟩]) ++
          [⟨Vec2d.new (6/5) 0, 1⟩] :=
      LottieGraph.push_pos_newframe_frames f2 (Vec2d.new (6/5) 0) hb3
    refine ⟨h1, h2, h3, he1, he2, he3, ?_, by decide⟩
    rw [hl3]
    simp only [Option.map_some']
    rw [f3]
    rfl

/-- Witness for C5 (amended): two in-band follow-up positions collapse into
one frame of run length 3; an out-of-band position appended to a run starts
a new frame. -/
theorem C5_drift_amended_witness :
    (LottieGraph.Node.feedList
      (LottieGraph.Node.push_pos ⟨0, ⟨0, 0, 0⟩, []⟩ (Vec2d.new 0 0))
      [Vec2d.new (1/2) 0, Vec2d.new 0 (1/2)]).frames =
      [⟨Vec2d.new 0 0, 3⟩] ∧
    (LottieGraph.Node.push_pos ⟨0, ⟨0, 0, 0⟩, [⟨Vec2d.new 0 0, 2⟩]⟩
      (Vec2d.new 3 0)).frames =
      [⟨Vec2d.new 0 0, 2⟩] ++ [⟨Vec2d.new 3 0, 1⟩] := by
  constructor
  · refine C5_drift_amended.1 0 ⟨0, 0, 0⟩ (Vec2d.new 0 0)
      [Vec2d.new (1/2) 0, Vec2d.new 0 (1/2)] ?_
    intro q hq
    rcases List.mem_cons.mp hq with rfl | hq
    · show (LottieGraph.Rcontains ((0 : ℚ) - 1/2) &&
        LottieGraph.Rcontains ((0 : ℚ) - 0)) = true
      simp only [LottieGraph.Rcontains, Bool.and_eq_true, decide_eq_true_eq]
      norm_num
    · rcases List.mem_cons.mp hq with rfl | hq
      · show (LottieGraph.Rcontains ((0 : ℚ) - 0) &&
          LottieGraph.Rcontains ((0 : ℚ) - 1/2)) = true
        simp only [LottieGraph.Rcontains, Bool.and_eq_true, decide_eq_true_eq]
        norm_num
      · exact absurd hq (List.not_mem_nil q)
  · refine C5_drift_amended.2 0 ⟨0, 0, 0⟩ [] (Vec2d.new 0 0) 2
      (Vec2d.new 3 0) ?_
    show (LottieGraph.Rcontains ((0 : ℚ) - 3) &&
      LottieGraph.Rcontains ((0 : ℚ) - 0)) = false
    have hfalse : decide ((-1 : ℚ) ≤ 0 - 3) = false := by
      rw [decide_eq_false_iff_not]
      norm_num
    simp only [LottieGraph.Rcontains]
    rw [hfalse]
    rfl

/-! ## Claims about `src/lib.rs` -/

theorem Vec2d.length_sub_self (sq : ℚ → ℚ) (hsq : sq 0 = 0) (v : Vec2d) :
    Vec2d.length sq (v - v) = 0 := by
  have h : v - v = Vec2d.new 0 0 := by
    show Vec2d.mk (v.x - v.x) (v.y - v.y) = Vec2d.new 0 0
    rw [sub_self, sub_self]
    rfl
  rw [h]
  show sq (0 * 0 + 0 * 0) = 0
  rw [show ((0 : ℚ) * 0 + 0 * 0) = 0 from by norm_num, hsq]

/-- The write loop applied to pairwise-distinct present ids performs exactly
the independent per-node update: it never observes a position written for
another id. -/
theorem System.moveMany_eq (edges : List (ℕ × List (ℕ × ℚ))) (steps : ℕ)
    (f : Node → Vec2d) :
    ∀ (rest pre : List (ℕ × Node)),
      (keysP rest).Nodup →
      (∀ p ∈ rest, ∀ q ∈ pre, p.1 ≠ q.1) →
      System.moveMany ⟨⟨pre ++ rest, edges⟩, steps⟩
        (rest.map (fun p => (p.1, f p.2))) =
        some ⟨⟨pre ++ rest.map (fun p => (p.1, System.moveFn (f p.2) p.2)),
          edges⟩, steps⟩ := by
  intro rest
  induction rest with
  | nil =>
    intro pre hnodup hdisj
    rw [List.map_nil, System.moveMany, List.map_nil, List.append_nil]
  | cons p t ih =>
    obtain ⟨k, n⟩ := p
    intro pre hnodup hdisj
    rw [List.map_cons, System.moveMany]
    dsimp only
    have hkpre : k ∉ keysP pre := by
      intro hk
      obtain ⟨q, hq, hq1⟩ := List.mem_map.mp hk
      exact hdisj (k, n) (List.mem_cons_self _ _) q hq hq1.symm
    have hknodup : k ∉ keysP t := by
      rw [keysP_cons] at hnodup
      exact (List.nodup_cons.mp hnodup).1
    have hlk : lookupP k (pre ++ (k, n) :: t) = some n := by
      rw [lookupP_append_of_not_mem hkpre, lookupP, if_pos rfl]
    have h1 : modifyP k (System.moveFn (f n)) pre = pre :=
      modifyP_eq_of_not_mem
        (fun q hq =>
          (hdisj (k, n) (List.mem_cons_self _ _) q hq).symm) _
    have h2 : modifyP k (System.moveFn (f n)) t = t :=
      modifyP_eq_of_not_mem
        (fun q hq hh => hknodup
          (by rw [← hh]; exact List.mem_map_of_mem Prod.fst hq)) _
    have hmove : System.move_node ⟨⟨pre ++ (k, n) :: t, edges⟩, steps⟩ k
        (f n) =
        some ⟨⟨pre ++ (k, System.moveFn (f n) n) :: t, edges⟩, steps⟩ := by
      simp only [System.move_node, hlk]
      show (some ⟨⟨modifyP k (System.moveFn (f n)) (pre ++ (k, n) :: t),
        edges⟩, steps⟩ : Option System) = _
      rw [modifyP_append, h1, modifyP, if_pos rfl, h2]
    rw [hmove]
    have ihx := ih (pre ++ [(k, System.moveFn (f n) n)])
      (by rw [keysP_cons] at hnodup; exact (List.nodup_cons.mp hnodup).2)
      (by
        intro p hp q hq
        rcases List.mem_append.mp hq with hq1 | hq2
        · exact hdisj p (List.mem_cons_of_mem _ hp) q hq1
        · rw [List.mem_singleton] at hq2
          subst hq2
          intro hh
          have hh2 : p.1 = k := hh
          exact hknodup
            (by rw [← hh2]; exact List.mem_map_of_mem Prod.fst hp))
    show System.moveMany ⟨⟨pre ++ (k, System.moveFn (f n) n) :: t, edges⟩,
      steps⟩ (t.map (fun p => (p.1, f p.2))) = _
    rw [show pre ++ (k, System.moveFn (f n) n) :: t =
      (pre ++ [(k, System.moveFn (f n) n)]) ++ t from by
        rw [List.append_assoc, List.singleton_append]]
    rw [ihx]
    rw [List.map_cons]
    rw [List.append_assoc, List.singleton_append]

/-- C1: one call to `System::step` equals the spec's Jacobi-style
synchronous reference update: every node's acceleration is computed from
the positions as they stood at the start of the tick, and only then is
every node's velocity and position updated. -/
theorem C1_step_jacobi (sq : ℚ → ℚ) (s : System)
    (hnodup : (keysP s.graph.nodes).Nodup)
    (hcoh : ∀ p ∈ s.graph.nodes, p.2.id = p.1) :
    System.step sq s = some (System.stepJacobiRef sq s) := by
  obtain ⟨⟨nodes, edges⟩, steps⟩ := s
  simp only [System.step]
  have hmap : nodes.map (fun p => (p.2.id,
      System.node_acceleration sq ⟨⟨nodes, edges⟩, steps⟩ p.2)) =
      nodes.map (fun p => (p.1,
        System.node_acceleration sq ⟨⟨nodes, edges⟩, steps⟩ p.2)) := by
    apply List.map_congr_left
    intro p hp
    rw [hcoh p hp]
  rw [hmap]
  have h := System.moveMany_eq edges steps
    (System.node_acceleration sq ⟨⟨nodes, edges⟩, steps⟩) nodes []
    hnodup (fun p _ q hq => absurd hq (List.not_mem_nil q))
  simp only [List.nil_append] at h
  rw [h]
  rfl

/-- Witness for C1 on a concrete two-node system, with the constant-zero
abstract square root. -/
theorem C1_step_jacobi_witness :
    System.step (fun _ => 0)
      (System.add_node (fun _ => 0)
        (System.add_node (fun _ => 0) System.new 0 (0, 0, 0) 0)
        1 (0, 0, 0) 0) =
      some (System.stepJacobiRef (fun _ => 0)
        (System.add_node (fun _ => 0)
          (System.add_node (fun _ => 0) System.new 0 (0, 0, 0) 0)
          1 (0, 0, 0) 0)) := by
  apply C1_step_jacobi
  · show ([1, 0] : List ℕ).Nodup
    decide
  · intro p hp
    rcases List.mem_cons.mp hp with rfl | hp
    · rfl
    · rcases List.mem_cons.mp hp with rfl | hp
      · rfl
      · exact absurd hp (List.not_mem_nil p)

/-- C9: a reachable state with two distinct exactly-coincident nodes exists
(two `add_node` calls whose rng draws coincide), and in it the per-tick
force computation divides by zero: the sibling's difference vector has
length 0, 0 is among the divisors `node_acceleration` hands to `as_unit`,
and `as_unit` divides both components by the length with no zero guard. -/
theorem C9_division_by_zero (sq : ℚ → ℚ) (hsq : sq 0 = 0) :
    ∃ s : System, System.Reach sq s ∧
      ∃ ni nj : Node,
        lookupP 0 s.graph.nodes = some ni ∧
        lookupP 1 s.graph.nodes = some nj ∧
        ni.id ≠ nj.id ∧
        ni.pos = nj.pos ∧
        (nj, 0) ∈ Graph.edgesOf Node.id (0 : ℚ) s.graph ni.id ∧
        Vec2d.length sq (nj.pos - ni.pos) = 0 ∧
        (0 : ℚ) ∈ System.accelDivisors sq s ni ∧
        (∀ v : Vec2d, Vec2d.as_unit sq v =
          ⟨v.x / Vec2d.length sq v, v.y / Vec2d.length sq v⟩) := by
  refine ⟨System.add_node sq
      (System.add_node sq System.new 0 (0, 0, 0) 0) 1 (0, 0, 0) 0,
    System.Reach.add 1 (0, 0, 0)
      (System.Reach.add 0 (0, 0, 0) System.Reach.new
        (by norm_num) (by norm_num))
      (by norm_num) (by norm_num),
    _, _, rfl, rfl,
    (by intro hh; exact absurd (show (0 : ℕ) = 1 from hh) (by decide)),
    rfl, ?_, ?_, ?_, fun v => rfl⟩
  · exact List.mem_singleton.mpr rfl
  · exact Vec2d.length_sub_self sq hsq _
  · exact List.mem_singleton.mpr (Vec2d.length_sub_self sq hsq _).symm

/-- Witness for C9 with the constant-zero abstract square root. -/
theorem C9_division_by_zero_witness :
    (fun _ : ℚ => (0 : ℚ)) 0 = 0 ∧
    ∃ s : System, System.Reach (fun _ : ℚ => (0 : ℚ)) s ∧
      ∃ ni nj : Node,
        lookupP 0 s.graph.nodes = some ni ∧
        lookupP 1 s.graph.nodes = some nj ∧
        ni.id ≠ nj.id ∧
        ni.pos = nj.pos ∧
        (nj, 0) ∈ Graph.edgesOf Node.id (0 : ℚ) s.graph ni.id ∧
        Vec2d.length (fun _ : ℚ => (0 : ℚ)) (nj.pos - ni.pos) = 0 ∧
        (0 : ℚ) ∈ System.accelDivisors (fun _ : ℚ => (0 : ℚ)) s ni ∧
        (∀ v : Vec2d, Vec2d.as_unit (fun _ : ℚ => (0 : ℚ)) v =
          ⟨v.x / Vec2d.length (fun _ : ℚ => (0 : ℚ)) v,
           v.y / Vec2d.length (fun _ : ℚ => (0 : ℚ)) v⟩) :=
  ⟨rfl, C9_division_by_zero (fun _ => 0) rfl⟩
